import Mathlib

/-!
Verification of the vphys collision-geometry extractor (src/vphys_parser.cpp).

The development shallowly embeds the core pipeline of the program:
the hex blob decoder (`bytes_to_vec`), the collision-attribute resolver
(`clean_collision_string`, `get_collision_attribute_indices`), the half-edge
hull triangulation loop, the indexed mesh triangulation loop, and the output
serialisation.  Machine integers are modelled as `Nat`/`Int` with explicit
modular reductions where C++ conversions matter; strings are modelled as
`List Char`; raw array accesses are modelled as `List.get?`, with an
`Option` result in which `none` records that the program performed a raw
access at an out-of-range index (undefined behaviour in the source), and
the hex decoder has an instrumented variant whose `none` likewise records
the decode loop running past the NUL terminator or overflowing the
resized vector's storage.
-/

namespace Vphys

/-- `struct Vector3 { float x, y, z; }` — each field is the 32-bit bit
pattern of the IEEE-754 single-precision component. -/
structure Vector3 where
  x : Nat
  y : Nat
  z : Nat
deriving DecidableEq

/-- `struct Triangle { Vector3 p1, p2, p3; }`. -/
structure Triangle where
  p1 : Vector3
  p2 : Vector3
  p3 : Vector3
deriving DecidableEq

/-- `struct Edge { uint8_t next, twin, origin, face; }` — half-edge record;
field values are the raw byte values (0..255). -/
structure Edge where
  next : Nat
  twin : Nat
  origin : Nat
  face : Nat
deriving DecidableEq

/-! ## Hex blob decoder (`bytes_to_vec`, src/vphys_parser.cpp lines 17-50) -/

/-- `getBits(x)`: `INRANGE(x,'0','9') ? (x - '0') : ((x&(~0x20)) - 'A' + 0xa)`.
Operates on the character code.  For characters that are not hex digits the
source computes a garbage value (possibly negative at type `int`); no claim
inspects those values, and truncated `Nat` subtraction stands in for them. -/
def getBits (c : Nat) : Nat :=
  if 48 ≤ c ∧ c ≤ 57 then c - 48 else (c &&& 0xDF) - 65 + 10

/-- `get_byte(x)`: `getBits(x[0]) << 4 | getBits(x[1])`. -/
def get_byte (c1 c2 : Nat) : Nat :=
  (getBits c1 <<< 4) ||| getBits c2

/-- The byte-producing loop of `bytes_to_vec`: walk the characters, skip a
space, otherwise consume two characters as one hex byte.  When a lone
non-space character ends the string the source reads the NUL terminator as
the second character (code 0 stands in for it) and then steps past it —
undefined behaviour that this unchecked model does not record; it is only
relied on through `bytes_to_vec` for inputs on which that case is
unreachable (valid hex-pair strings end every byte token with a
separator).  `decode_bytes_checked` is the instrumented variant. -/
def decode_bytes : List Char → List Nat
  | [] => []
  | c :: rest =>
    if c = ' ' then decode_bytes rest
    else
      match rest with
      | [] => [get_byte c.toNat 0]
      | c2 :: rest2 => get_byte c.toNat c2.toNat :: decode_bytes rest2

/-- The byte-producing loop of `bytes_to_vec`, instrumented for undefined
behaviour: on a trailing lone non-space character the source consumes the
NUL terminator as the token's second character and `p1 += 2` lands one
past it, so the next `while (*p1 != '\0')` test reads out of bounds —
recorded as `none`, following the file's convention for raw out-of-range
accesses. -/
def decode_bytes_checked : List Char → Option (List Nat)
  | [] => some []
  | c :: rest =>
    if c = ' ' then decode_bytes_checked rest
    else
      match rest with
      | [] => none
      | c2 :: rest2 =>
        match decode_bytes_checked rest2 with
        | none => none
        | some bs => some (get_byte c.toNat c2.toNat :: bs)

/-- `bytes_to_vec<Ty>` (src lines 21-50) for an element type of byte size
`sz`: empty input yields the empty vector; otherwise the vector is resized
to `bytes.size() / 3 / sz + 1` zero-initialised elements and the decoded
bytes are written into its storage from the front.  Elements are modelled
as their `sz` constituent bytes. -/
def bytes_to_vec (sz : Nat) (bytes : List Char) : List (List Nat) :=
  if bytes = [] then []
  else
    let num_bytes := bytes.length / 3
    let num_elements := num_bytes / sz
    let buf := decode_bytes bytes ++ List.replicate ((num_elements + 1) * sz) 0
    (List.range (num_elements + 1)).map (fun i => (buf.drop (i * sz)).take sz)

/-- `bytes_to_vec<Ty>` instrumented for undefined behaviour: `none` when
the decode loop runs past the NUL terminator
(`decode_bytes_checked = none`), or when the decoded bytes outnumber the
`(num_elements + 1) * sizeof(Ty)` bytes of the resized vector's storage,
which the source's `*p2++` writes would overflow — reachable for strings
denser than one encoded byte per three characters.  Where it returns
`some`, it agrees with the unchecked `bytes_to_vec` model
(`bytes_to_vec_checked_eq` below). -/
def bytes_to_vec_checked (sz : Nat) (bytes : List Char) :
    Option (List (List Nat)) :=
  if bytes = [] then some []
  else
    let num_bytes := bytes.length / 3
    let num_elements := num_bytes / sz
    match decode_bytes_checked bytes with
    | none => none
    | some raw =>
      if (num_elements + 1) * sz < raw.length then none
      else
        let buf :=
          raw ++ List.replicate ((num_elements + 1) * sz - raw.length) 0
        some ((List.range (num_elements + 1)).map
          (fun i => (buf.drop (i * sz)).take sz))

/-- A valid hex digit character, as the spec words it. -/
def IsHexDigit (c : Char) : Prop :=
  ('0' ≤ c ∧ c ≤ '9') ∨ ('A' ≤ c ∧ c ≤ 'F') ∨ ('a' ≤ c ∧ c ≤ 'f')

instance (c : Char) : Decidable (IsHexDigit c) := by
  unfold IsHexDigit; infer_instance

/-- A valid hex-pair blob string: one two-digit byte token plus a single
trailing space separator per encoded byte (3 characters per byte). -/
def hex_pair_string (pairs : List (Char × Char)) : List Char :=
  pairs.flatMap (fun p => [p.1, p.2, ' '])

/-! ## Half-edge hull triangulation (src/vphys_parser.cpp lines 195-226) -/

/-- A default `Edge`, standing in for `List.getD` reads that the theorems
only perform at indices known to be in range. -/
def dEdge : Edge := Edge.mk 0 0 0 0

/-- `vertices[i]` with the bound already established: `List.getD`. -/
def vGetD (vs : List Vector3) (i : Nat) : Vector3 :=
  (vs.get? i).getD (Vector3.mk 0 0 0)

/-- `edges_processed[i]` with the bound already established. -/
def eGetD (es : List Edge) (i : Nat) : Edge :=
  (es.get? i).getD dEdge

/-- The face-loop walk (the `while` loop of src lines 200-225).  `count` is
`face_vertex_count`; the guards mirror the source line by line
(`edge != start_edge && face_vertex_count < 100`, the two size checks, and
the three origin bounds).  Every raw array access is a `List.get?` read and
a `none` result records an access at an out-of-range index (the source
never performs one, which is proved below).  The structural `fuel`
argument only realises the recursion; callers pass 100, which the
`count < 100` guard makes sufficient for every run.  The returned `Nat` is
the final `face_vertex_count`. -/
def face_loop (vs : List Vector3) (es : List Edge) (start_edge : Nat) :
    Nat → Nat → Nat → Option (List Triangle × Nat)
  | 0, _, count => some ([], count)
  | fuel + 1, edge, count =>
    if edge = start_edge then some ([], count)
    else if 100 ≤ count then some ([], count)
    else if es.length ≤ edge then some ([], count)
    else
      match es.get? edge with
      | none => none
      | some eRec =>
        if es.length ≤ eRec.next then some ([], count)
        else
          match es.get? start_edge, es.get? eRec.next with
          | some sRec, some nRec =>
            let tris : Option (List Triangle) :=
              if sRec.origin < vs.length ∧ eRec.origin < vs.length ∧
                  nRec.origin < vs.length then
                match vs.get? sRec.origin, vs.get? eRec.origin,
                    vs.get? nRec.origin with
                | some p1, some p2, some p3 => some [Triangle.mk p1 p2 p3]
                | _, _, _ => none
              else some []
            match tris with
            | none => none
            | some ts0 =>
              match face_loop vs es start_edge fuel eRec.next (count + 1) with
              | none => none
              | some (ts, fc) => some (ts0 ++ ts, fc)
          | _, _ => none

/-- The hull triangulation: the `for (auto start_edge : faces_processed)`
loop of src lines 195-226.  An out-of-range face start index is skipped
(`continue`); otherwise `edge` is initialised to
`edges_processed[start_edge].next` and the face loop is walked. -/
def triangulate_hull (vs : List Vector3) (es : List Edge) :
    List Nat → Option (List Triangle)
  | [] => some []
  | start_edge :: rest =>
    if es.length ≤ start_edge then triangulate_hull vs es rest
    else
      match es.get? start_edge with
      | none => none
      | some sRec =>
        match face_loop vs es start_edge 100 sRec.next 0 with
        | none => none
        | some (ts, _) =>
          match triangulate_hull vs es rest with
          | none => none
          | some ts2 => some (ts ++ ts2)

/-! ## Indexed mesh triangulation (src/vphys_parser.cpp lines 272-282) -/

/-- The `size_t` value of a C++ `int` index, as produced by the implicit
conversion in `triangle_processed[i] < vertices.size()` and in
`vertices[triangle_processed[i]]`: two's complement modulo 2^64. -/
def to_size (v : Int) : Nat :=
  (v % (2 ^ 64 : Int)).toNat

/-- The comparison `v < vertices.size()` after the `int`-to-`size_t`
conversion. -/
def size_lt (v : Int) (n : Nat) : Bool :=
  to_size v < n

/-- The mesh triangulation loop (`for (int i = 0; i < size; i += 3)`, src
lines 272-282).  The list is consumed three entries per iteration; reading
`triangle_processed[i+1]` or `[i+2]` past the end of the array — which the
source does whenever the short-circuit `&&` chain reaches them on a
trailing partial triple — is the `none` result. -/
def mesh_loop (vs : List Vector3) : List Int → Option (List Triangle)
  | [] => some []
  | a :: rest =>
    if size_lt a vs.length then
      match rest with
      | [] => none
      | b :: rest2 =>
        if size_lt b vs.length then
          match rest2 with
          | [] => none
          | c :: rest3 =>
            if size_lt c vs.length then
              match vs.get? (to_size a), vs.get? (to_size b),
                  vs.get? (to_size c) with
              | some pa, some pb, some pc =>
                match mesh_loop vs rest3 with
                | none => none
                | some ts => some (Triangle.mk pa pb pc :: ts)
              | _, _, _ => none
            else mesh_loop vs rest3
        else
          match rest2 with
          | [] => some []
          | _ :: rest3 => mesh_loop vs rest3
    else
      match rest with
      | [] => some []
      | _ :: rest2 =>
        match rest2 with
        | [] => some []
        | _ :: rest3 => mesh_loop vs rest3

/-- `triangulate_mesh` of the spec: the mesh loop on the decoded index and
vertex arrays. -/
def triangulate_mesh (vs : List Vector3) (indices : List Int) :
    Option (List Triangle) :=
  mesh_loop vs indices

/-- The triangle list the spec's words for §4.4 describe: one triangle per
complete triple, emitted exactly when all three indices are non-negative
and strictly below the vertex count; used to state the refinement. -/
def spec_mesh_tris (vs : List Vector3) : List Int → List Triangle
  | a :: b :: c :: rest =>
    (if 0 ≤ a ∧ a < (vs.length : Int) ∧ 0 ≤ b ∧ b < (vs.length : Int) ∧
        0 ≤ c ∧ c < (vs.length : Int) then
      [Triangle.mk (vGetD vs a.toNat) (vGetD vs b.toNat) (vGetD vs c.toNat)]
    else []) ++ spec_mesh_tris vs rest
  | _ => []

/-- Whether processing the trailing partial triple reaches a read past the
end of the index array: the `&&` chain short-circuits, so the out-of-range
position is reached only when every earlier index of the partial triple
passes the vertex-bounds test. -/
def partial_reaches_oob (vs : List Vector3) : List Int → Bool
  | [a] => size_lt a vs.length
  | [a, b] => size_lt a vs.length && size_lt b vs.length
  | _ => false

/-! ## Collision attribute resolver (src/vphys_parser.cpp lines 79-113) -/

/-- `::tolower` in the C locale on an ASCII character code: `A`-`Z` map to
`a`-`z`, everything else is unchanged. -/
def tolower_char (c : Char) : Char :=
  if 65 ≤ c.toNat ∧ c.toNat ≤ 90 then Char.ofNat (c.toNat + 32) else c

/-- `cleaned.find_last_of('"')`: the position of the last double-quote
character, `none` when there is none (`string::npos`). -/
def find_last_of_quote : List Char → Option Nat
  | [] => none
  | c :: rest =>
    match find_last_of_quote rest with
    | some j => some (j + 1)
    | none => if c = '"' then some 0 else none

/-- `clean_collision_string` (src lines 80-93): when the string has length
at least 2 and starts with a double quote and its last double quote sits at
a later position, keep `substr(1, last_quote - 1)` (the characters strictly
between position 0 and the last quote, dropping anything after it); then
lowercase.  -/
def clean_collision_string (str : List Char) : List Char :=
  let cleaned :=
    if 2 ≤ str.length ∧ str.headD ' ' = '"' then
      match find_last_of_quote str with
      | some last_quote =>
        if 0 < last_quote then (str.drop 1).take (last_quote - 1) else str
      | none => str
    else str
  cleaned.map tolower_char

/-- The literal label `default`. -/
def default_label : List Char := ['d', 'e', 'f', 'a', 'u', 'l', 't']

/-- Modelled from the spec: `c_kv3_parser::get_value` (declared in
kv3-parser.hpp, which is not under src/).  The spec's store interface is
`get(path) -> optional<string>` with "Absence is distinguished from an
empty string": the parser returns the raw value token of a present path —
a quoted string, hence never the empty string — and the empty string
exactly on absence.  The store is abstracted as the map from the slot
index to the optional raw token of
`m_collisionAttributes[i].m_CollisionGroupString`. -/
def get_value (q : Nat → Option (List Char)) (i : Nat) : List Char :=
  (q i).getD []

/-- The scan loop of `get_collision_attribute_indices` (src lines 95-113),
from slot `i` on: a non-empty query result is cleaned and compared against
`"default"` (accepted slots are collected in order), the empty result —
absence — breaks the loop.  The source loop is `while (true)`; the
structural `fuel` argument caps the recursion and every theorem below
supplies fuel beyond the first absent slot, where the run is insensitive
to it. -/
def collision_scan (q : Nat → Option (List Char)) : Nat → Nat → List Nat
  | 0, _ => []
  | fuel + 1, i =>
    let s := get_value q i
    if s ≠ [] then
      (if clean_collision_string s = default_label then [i] else []) ++
        collision_scan q fuel (i + 1)
    else []

/-- `get_collision_attribute_indices` (src lines 95-113): the scan from
slot 0. -/
def get_collision_attribute_indices (q : Nat → Option (List Char))
    (fuel : Nat) : List Nat :=
  collision_scan q fuel 0

/-! ## Output serialisation (src/vphys_parser.cpp lines 300-311) -/

/-- The four bytes of a 32-bit value on a little-endian host. -/
def bytesLE (w : Nat) : List Nat :=
  [w % 256, w / 256 % 256, w / 65536 % 256, w / 16777216 % 256]

/-- The 12 bytes of a `Vector3` (three consecutive 4-byte little-endian
single-precision floats, no padding). -/
def vector3_bytes (v : Vector3) : List Nat :=
  bytesLE v.x ++ bytesLE v.y ++ bytesLE v.z

/-- The 36 bytes of a `Triangle` (`sizeof(Triangle)` = 36: three
consecutive `Vector3`, no padding). -/
def triangle_bytes (t : Triangle) : List Nat :=
  vector3_bytes t.p1 ++ vector3_bytes t.p2 ++ vector3_bytes t.p3

/-- The output decision and bytes of src lines 300-311 for one document
(assuming the output stream opens, the out-of-scope I/O mechanics): when
`triangles.size() > 0` the raw triangle buffer —
`triangles.size() * sizeof(Triangle)` bytes, no header, no count, no
padding — is written; otherwise no file is produced. -/
def write_output (triangles : List Triangle) : Option (List Nat) :=
  if 0 < triangles.length then some (triangles.flatMap triangle_bytes)
  else none

/-! ## Statement-side definitions -/

/-- The face loop's link structure, used to state what a well-formed walk
is: each listed half-edge's `next` field points to the following entry,
and the last one points back to `s`. -/
def chain_to (es : List Edge) (s : Nat) : List Nat → Prop
  | [] => True
  | [e] => (eGetD es e).next = s
  | e :: e2 :: rest => (eGetD es e).next = e2 ∧ chain_to es s (e2 :: rest)

/-- The triangles the walk emits while the remaining loop entries are
`rest`: one per entry, anchored at `s`'s origin vertex, the one for the
final entry closing back onto the anchor. -/
def fan_tris (vs : List Vector3) (es : List Edge) (s : Nat) :
    List Nat → List Triangle
  | [] => []
  | [e] =>
    [Triangle.mk (vGetD vs (eGetD es s).origin) (vGetD vs (eGetD es e).origin)
      (vGetD vs (eGetD es s).origin)]
  | e :: e2 :: rest =>
    Triangle.mk (vGetD vs (eGetD es s).origin) (vGetD vs (eGetD es e).origin)
        (vGetD vs (eGetD es e2).origin) ::
      fan_tris vs es s (e2 :: rest)

/-- Concrete vertex array for a square hull (the component values are
arbitrary bit patterns; only their positions matter). -/
def sqVs : List Vector3 :=
  [Vector3.mk 0 0 0, Vector3.mk 1 0 0, Vector3.mk 2 0 0, Vector3.mk 3 0 0]

/-- Concrete half-edge array of a single square face: the loop
0 → 1 → 2 → 3 → 0 with origins 0, 1, 2, 3. -/
def sqEs : List Edge :=
  [Edge.mk 1 0 0 0, Edge.mk 2 0 1 0, Edge.mk 3 0 2 0, Edge.mk 0 0 3 0]

/-- A half-edge array whose face loop from start edge 0 never returns to
it: edge 0 points to edge 1, which points to itself. -/
def loopEs : List Edge := [Edge.mk 1 0 0 0, Edge.mk 1 0 0 0]

/-- Concrete property store with two collision-attribute slots: slot 0
holds the raw token of a present-but-empty string, slot 1 the quoted
`default` label with a trailing newline, every further slot is absent. -/
def c4q : Nat → Option (List Char) := fun i =>
  if i = 0 then some ['"', '"']
  else if i = 1 then some ['"', 'd', 'e', 'f', 'a', 'u', 'l', 't', '"', '\n']
  else none

/-! ## Decoder lemmas -/

theorem hex_pair_string_length (pairs : List (Char × Char)) :
    (hex_pair_string pairs).length = 3 * pairs.length := by
  induction pairs with
  | nil => rfl
  | cons p rest ih => simp [hex_pair_string] at ih ⊢; omega

theorem bytes_to_vec_length (sz : Nat) (bytes : List Char) (hb : bytes ≠ []) :
    (bytes_to_vec sz bytes).length = bytes.length / 3 / sz + 1 := by
  simp [bytes_to_vec, hb]

theorem decode_bytes_checked_eq :
    ∀ (bytes : List Char) (bs : List Nat),
      decode_bytes_checked bytes = some bs → decode_bytes bytes = bs
  | [], bs, h => by
    simp only [decode_bytes_checked, Option.some.injEq] at h
    simp [decode_bytes, h]
  | [c], bs, h => by
    by_cases hsp : c = ' '
    · subst hsp
      simp only [decode_bytes_checked, if_pos rfl, if_true,
        Option.some.injEq] at h
      simp [decode_bytes, h]
    · simp [decode_bytes_checked, hsp] at h
  | c :: c2 :: rest2, bs, h => by
    by_cases hsp : c = ' '
    · subst hsp
      simp only [decode_bytes_checked, if_pos rfl] at h
      have ih := decode_bytes_checked_eq (c2 :: rest2) bs h
      simp [decode_bytes, ih]
    · simp only [decode_bytes_checked, hsp, if_false] at h
      cases hdec : decode_bytes_checked rest2 with
      | none => rw [hdec] at h; simp at h
      | some bs2 =>
        rw [hdec] at h
        simp only [Option.some.injEq] at h
        have ih := decode_bytes_checked_eq rest2 bs2 hdec
        simp [decode_bytes, hsp, ih, ← h]

theorem chunks_pad_eq (raw : List Nat) (n sz : Nat)
    (hle : raw.length ≤ n * sz) (i : Nat) (hi : i < n) :
    ((raw ++ List.replicate (n * sz) 0).drop (i * sz)).take sz =
    ((raw ++ List.replicate (n * sz - raw.length) 0).drop (i * sz)).take sz := by
  have hBlen : (raw ++ List.replicate (n * sz - raw.length) 0).length =
      n * sz := by
    simp
    omega
  have hA : raw ++ List.replicate (n * sz) 0 =
      (raw ++ List.replicate (n * sz - raw.length) 0) ++
        List.replicate raw.length 0 := by
    rw [List.append_assoc, ← List.replicate_add]
    have h1 : n * sz - raw.length + raw.length = n * sz := by omega
    rw [h1]
  have hmul : i * sz + sz ≤ n * sz := by
    have h2 : (i + 1) * sz ≤ n * sz := Nat.mul_le_mul_right sz hi
    have h3 : (i + 1) * sz = i * sz + sz := by ring
    omega
  rw [hA,
    List.drop_append_of_le_length (by omega : i * sz ≤
      (raw ++ List.replicate (n * sz - raw.length) 0).length),
    List.take_append_of_le_length]
  rw [List.length_drop, hBlen]
  omega

theorem bytes_to_vec_checked_eq (sz : Nat) (bytes : List Char)
    (r : List (List Nat)) (h : bytes_to_vec_checked sz bytes = some r) :
    bytes_to_vec sz bytes = r := by
  by_cases hb : bytes = []
  · subst hb
    simp [bytes_to_vec_checked] at h
    simp [bytes_to_vec, ← h]
  · simp only [bytes_to_vec_checked, hb, if_false] at h
    cases hdec : decode_bytes_checked bytes with
    | none =>
      simp only [hdec] at h
      exact Option.noConfusion h
    | some raw =>
      simp only [hdec] at h
      by_cases hov : (bytes.length / 3 / sz + 1) * sz < raw.length
      · rw [if_pos hov] at h
        simp at h
      · rw [if_neg hov] at h
        simp only [Option.some.injEq] at h
        have hraw : decode_bytes bytes = raw :=
          decode_bytes_checked_eq bytes raw hdec
        simp only [bytes_to_vec, hb, if_false, hraw]
        rw [← h]
        apply List.map_congr_left
        intro i hi
        exact chunks_pad_eq raw (bytes.length / 3 / sz + 1) sz (by omega) i
          (List.mem_range.mp hi)

/-! ## Mesh triangulation lemmas -/

theorem to_size_of_nonneg (v : Int) (h0 : 0 ≤ v) (h1 : v < 2 ^ 31) :
    to_size v = v.toNat := by
  unfold to_size
  omega

theorem size_lt_iff (v : Int) (n : Nat) (hlo : -(2 ^ 31) ≤ v)
    (hhi : v < 2 ^ 31) (hn : n < 2 ^ 63) :
    size_lt v n = true ↔ 0 ≤ v ∧ v < (n : Int) := by
  simp only [size_lt, to_size, decide_eq_true_eq]
  omega

theorem vGetD_get? (vs : List Vector3) (i : Nat) (h : i < vs.length) :
    vs.get? i = some (vGetD vs i) := by
  unfold vGetD
  rw [List.get?_eq_get h]
  rfl

theorem mesh_loop_spec (vs : List Vector3) (hvs : vs.length < 2 ^ 63) :
    ∀ l : List Int, (∀ v ∈ l, -(2 ^ 31 : Int) ≤ v ∧ v < 2 ^ 31) →
      mesh_loop vs l =
        if partial_reaches_oob vs (l.drop (3 * (l.length / 3))) then none
        else some (spec_mesh_tris vs l)
  | [] , _ => by
    simp [mesh_loop, partial_reaches_oob, spec_mesh_tris]
  | [a], h => by
    cases hsa : size_lt a vs.length <;>
      simp [mesh_loop, partial_reaches_oob, spec_mesh_tris, hsa]
  | [a, b], h => by
    cases hsa : size_lt a vs.length <;> cases hsb : size_lt b vs.length <;>
      simp [mesh_loop, partial_reaches_oob, spec_mesh_tris, hsa, hsb]
  | a :: b :: c :: rest, h => by
    have ha := h a (by simp)
    have hb := h b (by simp)
    have hc := h c (by simp)
    have hrest : ∀ v ∈ rest, -(2 ^ 31 : Int) ≤ v ∧ v < 2 ^ 31 := by
      intro v hv; exact h v (by simp [hv])
    have ih := mesh_loop_spec vs hvs rest hrest
    have hq : 3 * ((a :: b :: c :: rest).length / 3) =
        3 + 3 * (rest.length / 3) := by
      simp only [List.length_cons]
      omega
    have hdrop : (a :: b :: c :: rest).drop (3 + 3 * (rest.length / 3)) =
        rest.drop (3 * (rest.length / 3)) := by
      rw [← List.drop_drop]
      rfl
    rw [hq, hdrop]
    cases hsa : size_lt a vs.length with
    | false =>
      simp only [mesh_loop, hsa, Bool.false_eq_true, if_false]
      rw [ih]
      have hca : ¬ (0 ≤ a ∧ a < (vs.length : Int) ∧ 0 ≤ b ∧
          b < (vs.length : Int) ∧ 0 ≤ c ∧ c < (vs.length : Int)) := by
        intro hco
        have := (size_lt_iff a vs.length ha.1 ha.2 hvs).mpr ⟨hco.1, hco.2.1⟩
        rw [hsa] at this
        exact Bool.false_ne_true this
      simp [spec_mesh_tris, hca]
    | true =>
      cases hsb : size_lt b vs.length with
      | false =>
        simp only [mesh_loop, hsa, hsb, Bool.false_eq_true, if_true, if_false]
        rw [ih]
        have hcb : ¬ (0 ≤ a ∧ a < (vs.length : Int) ∧ 0 ≤ b ∧
            b < (vs.length : Int) ∧ 0 ≤ c ∧ c < (vs.length : Int)) := by
          intro hco
          have := (size_lt_iff b vs.length hb.1 hb.2 hvs).mpr
            ⟨hco.2.2.1, hco.2.2.2.1⟩
          rw [hsb] at this
          exact Bool.false_ne_true this
        simp [spec_mesh_tris, hcb]
      | true =>
        cases hsc : size_lt c vs.length with
        | false =>
          simp only [mesh_loop, hsa, hsb, hsc, Bool.false_eq_true, if_true,
            if_false]
          rw [ih]
          have hcc : ¬ (0 ≤ a ∧ a < (vs.length : Int) ∧ 0 ≤ b ∧
              b < (vs.length : Int) ∧ 0 ≤ c ∧ c < (vs.length : Int)) := by
            intro hco
            have := (size_lt_iff c vs.length hc.1 hc.2 hvs).mpr
              ⟨hco.2.2.2.2.1, hco.2.2.2.2.2⟩
            rw [hsc] at this
            exact Bool.false_ne_true this
          simp [spec_mesh_tris, hcc]
        | true =>
          have hA := (size_lt_iff a vs.length ha.1 ha.2 hvs).mp hsa
          have hB := (size_lt_iff b vs.length hb.1 hb.2 hvs).mp hsb
          have hC := (size_lt_iff c vs.length hc.1 hc.2 hvs).mp hsc
          have hta : to_size a < vs.length := by
            simpa [size_lt] using hsa
          have htb : to_size b < vs.length := by
            simpa [size_lt] using hsb
          have htc : to_size c < vs.length := by
            simpa [size_lt] using hsc
          simp only [mesh_loop, hsa, hsb, hsc, if_true,
            vGetD_get? vs (to_size a) hta, vGetD_get? vs (to_size b) htb,
            vGetD_get? vs (to_size c) htc]
          rw [ih]
          have hcond : 0 ≤ a ∧ a < (vs.length : Int) ∧ 0 ≤ b ∧
              b < (vs.length : Int) ∧ 0 ≤ c ∧ c < (vs.length : Int) :=
            ⟨hA.1, hA.2, hB.1, hB.2, hC.1, hC.2⟩
          simp only [spec_mesh_tris, hcond, if_true,
            to_size_of_nonneg a hA.1 ha.2, to_size_of_nonneg b hB.1 hb.2,
            to_size_of_nonneg c hC.1 hc.2]
          cases hr : partial_reaches_oob vs (rest.drop (3 * (rest.length / 3)))
            <;> simp [hr]

/-! ## Hull triangulation lemmas -/

theorem get?_eq_eGetD (es : List Edge) (i : Nat) (h : i < es.length) :
    es.get? i = some (eGetD es i) := by
  unfold eGetD
  rw [List.get?_eq_get h]
  rfl

theorem getElem?_eq_eGetD (es : List Edge) (i : Nat) (h : i < es.length) :
    es[i]? = some (eGetD es i) := by
  rw [← List.get?_eq_getElem?]
  exact get?_eq_eGetD es i h

theorem vGetD_getElem? (vs : List Vector3) (i : Nat) (h : i < vs.length) :
    vs[i]? = some (vGetD vs i) := by
  rw [← List.get?_eq_getElem?]
  exact vGetD_get? vs i h

theorem face_loop_at_start (vs : List Vector3) (es : List Edge) (s : Nat) :
    ∀ fuel count, face_loop vs es s fuel s count = some ([], count) := by
  intro fuel count
  cases fuel with
  | zero => rfl
  | succ fuel => simp [face_loop]

theorem face_loop_safe (vs : List Vector3) (es : List Edge) (s : Nat)
    (hs : s < es.length) :
    ∀ (fuel edge count : Nat), ∃ ts fc,
      face_loop vs es s fuel edge count = some (ts, fc) ∧
        fc ≤ max count 100 := by
  intro fuel
  induction fuel with
  | zero =>
    intro edge count
    exact ⟨[], count, rfl, Nat.le_max_left count 100⟩
  | succ fuel ih =>
    intro edge count
    by_cases h1 : edge = s
    · exact ⟨[], count, by simp [face_loop, h1], Nat.le_max_left count 100⟩
    by_cases h2 : 100 ≤ count
    · exact ⟨[], count, by simp [face_loop, h1, h2], Nat.le_max_left count 100⟩
    by_cases h3 : es.length ≤ edge
    · exact ⟨[], count, by simp [face_loop, h1, h2, h3],
        Nat.le_max_left count 100⟩
    have hedge : edge < es.length := Nat.lt_of_not_le h3
    by_cases h4 : es.length ≤ (eGetD es edge).next
    · refine ⟨[], count, ?_, Nat.le_max_left count 100⟩
      simp [face_loop, h1, h2, h3, getElem?_eq_eGetD es edge hedge, h4]
    have hnext : (eGetD es edge).next < es.length := Nat.lt_of_not_le h4
    obtain ⟨ts, fc, hrec, hfc⟩ := ih (eGetD es edge).next (count + 1)
    have hfc' : fc ≤ max count 100 := by
      rcases Nat.le_total count 100 with hcle | hcge
      · have : max (count + 1) 100 = 100 := Nat.max_eq_right (by omega)
        rw [this] at hfc
        exact hfc.trans (Nat.le_max_right count 100)
      · omega
    by_cases h5 : (eGetD es s).origin < vs.length ∧
        (eGetD es edge).origin < vs.length ∧
        (eGetD es (eGetD es edge).next).origin < vs.length
    · refine ⟨Triangle.mk (vGetD vs (eGetD es s).origin)
          (vGetD vs (eGetD es edge).origin)
          (vGetD vs (eGetD es (eGetD es edge).next).origin) :: ts, fc, ?_, hfc'⟩
      simp [face_loop, h1, h2, h3, h4, getElem?_eq_eGetD es edge hedge,
        getElem?_eq_eGetD es s hs,
        getElem?_eq_eGetD es (eGetD es edge).next hnext, h5,
        vGetD_getElem? vs (eGetD es s).origin h5.1,
        vGetD_getElem? vs (eGetD es edge).origin h5.2.1,
        vGetD_getElem? vs (eGetD es (eGetD es edge).next).origin h5.2.2, hrec]
    · refine ⟨ts, fc, ?_, hfc'⟩
      simp [face_loop, h1, h2, h3, h4, getElem?_eq_eGetD es edge hedge,
        getElem?_eq_eGetD es s hs,
        getElem?_eq_eGetD es (eGetD es edge).next hnext, h5, hrec]

theorem getLast?_cons_of_ne {α : Type} (x : α) (l : List α) (h : l ≠ []) :
    (x :: l).getLast? = l.getLast? := by
  cases l with
  | nil => exact absurd rfl h
  | cons y l => rw [List.getLast?_cons_cons]

theorem fan_tris_length (vs : List Vector3) (es : List Edge) (s : Nat) :
    ∀ rest : List Nat, (fan_tris vs es s rest).length = rest.length
  | [] => rfl
  | [_] => rfl
  | e :: e2 :: rest => by
    have ih := fan_tris_length vs es s (e2 :: rest)
    simp only [fan_tris, List.length_cons] at ih ⊢
    omega

theorem fan_tris_ne_nil (vs : List Vector3) (es : List Edge) (s : Nat)
    (rest : List Nat) (h : rest ≠ []) : fan_tris vs es s rest ≠ [] := by
  intro hc
  have := fan_tris_length vs es s rest
  rw [hc] at this
  cases rest with
  | nil => exact h rfl
  | cons e r => simp at this

theorem fan_tris_anchor (vs : List Vector3) (es : List Edge) (s : Nat) :
    ∀ rest : List Nat, ∀ t ∈ fan_tris vs es s rest,
      t.p1 = vGetD vs (eGetD es s).origin
  | [] => by simp [fan_tris]
  | [e] => by simp [fan_tris]
  | e :: e2 :: rest => by
    have ih := fan_tris_anchor vs es s (e2 :: rest)
    intro t ht
    simp only [fan_tris, List.mem_cons] at ht
    rcases ht with h | h
    · rw [h]
    · exact ih t h

theorem fan_tris_last (vs : List Vector3) (es : List Edge) (s : Nat) :
    ∀ rest : List Nat, rest ≠ [] →
      ∃ t, (fan_tris vs es s rest).getLast? = some t ∧
        t.p1 = vGetD vs (eGetD es s).origin ∧ t.p3 = t.p1
  | [], h => absurd rfl h
  | [e], _ =>
    ⟨Triangle.mk (vGetD vs (eGetD es s).origin)
        (vGetD vs (eGetD es e).origin) (vGetD vs (eGetD es s).origin),
      rfl, rfl, rfl⟩
  | e :: e2 :: rest, _ => by
    obtain ⟨t, ht, h1, h3⟩ := fan_tris_last vs es s (e2 :: rest) (by simp)
    refine ⟨t, ?_, h1, h3⟩
    have hne := fan_tris_ne_nil vs es s (e2 :: rest) (by simp)
    calc (fan_tris vs es s (e :: e2 :: rest)).getLast?
        = (fan_tris vs es s (e2 :: rest)).getLast? :=
          getLast?_cons_of_ne _ _ hne
      _ = some t := ht

theorem face_loop_walk (vs : List Vector3) (es : List Edge) (s : Nat)
    (hs : s < es.length) (hso : (eGetD es s).origin < vs.length) :
    ∀ (rest : List Nat) (count fuel : Nat),
      rest ≠ [] →
      (∀ e ∈ rest, e ≠ s) →
      (∀ e ∈ rest, e < es.length) →
      (∀ e ∈ rest, (eGetD es e).origin < vs.length) →
      chain_to es s rest →
      count + rest.length ≤ 100 →
      rest.length ≤ fuel →
      face_loop vs es s fuel (rest.headD s) count =
        some (fan_tris vs es s rest, count + rest.length)
  | [], _, _, hnil, _, _, _, _, _, _ => absurd rfl hnil
  | [e], count, fuel, _, hne, hrange, horig, hch, hcount, hfuel => by
    cases fuel with
    | zero => simp at hfuel
    | succ f =>
      have h1 : ¬ (e = s) := hne e (by simp)
      have h2 : ¬ (100 ≤ count) := by simp at hcount; omega
      have h3 : ¬ (es.length ≤ e) := Nat.not_le_of_lt (hrange e (by simp))
      have he : e < es.length := hrange e (by simp)
      have hnx : (eGetD es e).next = s := hch
      have hoe : (eGetD es e).origin < vs.length := horig e (by simp)
      simp [face_loop, fan_tris, h1, h2, h3, getElem?_eq_eGetD es e he, hnx,
        Nat.not_le_of_lt hs, getElem?_eq_eGetD es s hs, hso, hoe,
        vGetD_getElem? vs (eGetD es s).origin hso,
        vGetD_getElem? vs (eGetD es e).origin hoe,
        face_loop_at_start vs es s f (count + 1)]
  | e :: e2 :: rest, count, fuel, _, hne, hrange, horig, hch, hcount,
      hfuel => by
    cases fuel with
    | zero => simp at hfuel
    | succ f =>
      have ih := face_loop_walk vs es s hs hso (e2 :: rest) (count + 1) f
        (by simp) (fun x hx => hne x (by simp [hx]))
        (fun x hx => hrange x (by simp [hx]))
        (fun x hx => horig x (by simp [hx])) hch.2
        (by simp at hcount ⊢; omega) (by simp at hfuel ⊢; omega)
      have h1 : ¬ (e = s) := hne e (by simp)
      have h2 : ¬ (100 ≤ count) := by simp at hcount; omega
      have h3 : ¬ (es.length ≤ e) := Nat.not_le_of_lt (hrange e (by simp))
      have he : e < es.length := hrange e (by simp)
      have he2 : e2 < es.length := hrange e2 (by simp)
      have hnx : (eGetD es e).next = e2 := hch.1
      have hoe : (eGetD es e).origin < vs.length := horig e (by simp)
      have hoe2 : (eGetD es e2).origin < vs.length := horig e2 (by simp)
      simp only [List.headD_cons] at ih
      have harith : count + 1 + (e2 :: rest).length =
          count + (e :: e2 :: rest).length := by
        simp only [List.length_cons]
        omega
      rw [harith] at ih
      simp [face_loop, fan_tris, h1, h2, h3, getElem?_eq_eGetD es e he, hnx,
        Nat.not_le_of_lt he2, getElem?_eq_eGetD es s hs,
        getElem?_eq_eGetD es e2 he2, hso, hoe, hoe2,
        vGetD_getElem? vs (eGetD es s).origin hso,
        vGetD_getElem? vs (eGetD es e).origin hoe,
        vGetD_getElem? vs (eGetD es e2).origin hoe2, ih]

theorem triangulate_hull_safe (vs : List Vector3) (es : List Edge) :
    ∀ faces : List Nat, ∃ ts, triangulate_hull vs es faces = some ts := by
  intro faces
  induction faces with
  | nil => exact ⟨[], rfl⟩
  | cons s rest ih =>
    obtain ⟨ts2, hts2⟩ := ih
    by_cases hse : es.length ≤ s
    · exact ⟨ts2, by simp [triangulate_hull, hse, hts2]⟩
    have hs : s < es.length := Nat.lt_of_not_le hse
    obtain ⟨ts, fc, hrec, _⟩ :=
      face_loop_safe vs es s hs 100 (eGetD es s).next 0
    exact ⟨ts ++ ts2, by
      simp [triangulate_hull, hse, getElem?_eq_eGetD es s hs, hrec, hts2]⟩

/-! ## Resolver lemmas -/

theorem collision_scan_spec (q : Nat → Option (List Char)) (k : Nat)
    (hpres : ∀ j, j < k → ∃ t, q j = some t ∧ t ≠ [])
    (habs : q k = none) :
    ∀ (fuel i : Nat), i ≤ k → k - i < fuel →
      collision_scan q fuel i =
        (List.range' i (k - i)).filter
          (fun j =>
            decide (clean_collision_string (get_value q j) = default_label)) := by
  intro fuel
  induction fuel with
  | zero =>
    intro i hik hfi
    omega
  | succ fuel ih =>
    intro i hik hfi
    by_cases hiq : i = k
    · subst hiq
      simp [collision_scan, get_value, habs]
    · have hlt : i < k := Nat.lt_of_le_of_ne hik hiq
      obtain ⟨t, hqt, htne⟩ := hpres i hlt
      have hv : get_value q i = t := by simp [get_value, hqt]
      have hrec := ih (i + 1) hlt (by omega)
      have hk : k - i = (k - (i + 1)) + 1 := by omega
      rw [hk, List.range'_succ i (k - (i + 1)) 1]
      simp only [collision_scan, hv, hrec, List.filter_cons]
      by_cases hcl : clean_collision_string t = default_label <;>
        simp [hcl, htne]

/-! ## Serialisation lemmas -/

theorem triangle_bytes_length (t : Triangle) : (triangle_bytes t).length = 36 :=
  rfl

theorem flatMap_triangle_bytes_length :
    ∀ ts : List Triangle, (ts.flatMap triangle_bytes).length = 36 * ts.length
  | [] => rfl
  | t :: ts => by
    have ih := flatMap_triangle_bytes_length ts
    simp only [List.flatMap_cons, List.length_append, List.length_cons,
      triangle_bytes_length, ih]
    omega

/-! ## Claims -/

/-- C1 (corrected): on a hull consisting of a single square face — 4
half-edges forming one closed loop, all indices in range — the
triangulation emits exactly 3 triangles, each having the face's start
vertex `vertices[edges[start].origin]` as its first vertex: the 2 proper
fan triangles the claim describes, plus a final degenerate triangle whose
third vertex equals the anchor, emitted on the closing step of the walk. -/
theorem c1_single_square_face (vs : List Vector3) (es : List Edge)
    (s a b c : Nat)
    (hs : s < es.length) (ha : a < es.length) (hb : b < es.length)
    (hc : c < es.length)
    (hna : a ≠ s) (hnb : b ≠ s) (hnc : c ≠ s)
    (hsa : (eGetD es s).next = a) (hab : (eGetD es a).next = b)
    (hbc : (eGetD es b).next = c) (hcs : (eGetD es c).next = s)
    (hos : (eGetD es s).origin < vs.length)
    (hoa : (eGetD es a).origin < vs.length)
    (hob : (eGetD es b).origin < vs.length)
    (hoc : (eGetD es c).origin < vs.length) :
    triangulate_hull vs es [s] =
      some [Triangle.mk (vGetD vs (eGetD es s).origin)
          (vGetD vs (eGetD es a).origin) (vGetD vs (eGetD es b).origin),
        Triangle.mk (vGetD vs (eGetD es s).origin)
          (vGetD vs (eGetD es b).origin) (vGetD vs (eGetD es c).origin),
        Triangle.mk (vGetD vs (eGetD es s).origin)
          (vGetD vs (eGetD es c).origin) (vGetD vs (eGetD es s).origin)] ∧
    ∀ t ∈ [Triangle.mk (vGetD vs (eGetD es s).origin)
          (vGetD vs (eGetD es a).origin) (vGetD vs (eGetD es b).origin),
        Triangle.mk (vGetD vs (eGetD es s).origin)
          (vGetD vs (eGetD es b).origin) (vGetD vs (eGetD es c).origin),
        Triangle.mk (vGetD vs (eGetD es s).origin)
          (vGetD vs (eGetD es c).origin) (vGetD vs (eGetD es s).origin)],
      t.p1 = vGetD vs (eGetD es s).origin := by
  constructor
  · have hwalk := face_loop_walk vs es s hs hos [a, b, c] 0 100 (by simp)
      (by intro e he; simp at he; rcases he with rfl | rfl | rfl <;> assumption)
      (by intro e he; simp at he; rcases he with rfl | rfl | rfl <;> assumption)
      (by intro e he; simp at he; rcases he with rfl | rfl | rfl <;> assumption)
      ⟨hab, hbc, hcs⟩ (by norm_num) (by norm_num)
    simp only [List.headD_cons] at hwalk
    simp [triangulate_hull, Nat.not_le_of_lt hs, getElem?_eq_eGetD es s hs,
      hsa, hwalk, fan_tris]
  · simp

/-- C1 counterexample: on a concrete square face (4 half-edges forming one
closed loop over 4 distinct vertices, everything in range) the
triangulation emits 3 triangles, not the 2 the claim states. -/
theorem c1_counterexample :
    (triangulate_hull sqVs sqEs [0]).map List.length = some 3 ∧
    (triangulate_hull sqVs sqEs [0]).map List.length ≠ some 2 := by
  constructor
  · rfl
  · decide

/-- C1 witness: the amended statement instantiated on the concrete square
hull. -/
theorem c1_witness :
    ((1 : Nat) ≠ 0 ∧ 0 < sqEs.length) ∧
    triangulate_hull sqVs sqEs [0] =
      some [Triangle.mk (Vector3.mk 0 0 0) (Vector3.mk 1 0 0)
          (Vector3.mk 2 0 0),
        Triangle.mk (Vector3.mk 0 0 0) (Vector3.mk 2 0 0) (Vector3.mk 3 0 0),
        Triangle.mk (Vector3.mk 0 0 0) (Vector3.mk 3 0 0)
          (Vector3.mk 0 0 0)] :=
  ⟨⟨by decide, by decide⟩,
    Eq.trans
      (c1_single_square_face sqVs sqEs 0 1 2 3 (by decide) (by decide)
        (by decide) (by decide) (by decide) (by decide) (by decide)
        (by decide) (by decide) (by decide) (by decide) (by decide)
        (by decide) (by decide) (by decide)).1
      (by decide)⟩

/-- C2 (corrected): the hull triangulation is total and never performs a
raw array access at an out-of-range index for any input — a `some` result
of the instrumented embedding — and each face's loop walk performs at most
100 iterations (the final `face_vertex_count` starting from 0 is at most
100); "fewer than 100" fails, see the counterexample. -/
theorem c2_hull_safety (vs : List Vector3) (es : List Edge)
    (faces : List Nat) :
    (∃ ts, triangulate_hull vs es faces = some ts) ∧
    (∀ s, s < es.length →
      ∃ ts fc, face_loop vs es s 100 (eGetD es s).next 0 = some (ts, fc) ∧
        fc ≤ 100) := by
  constructor
  · exact triangulate_hull_safe vs es faces
  · intro s hs
    obtain ⟨ts, fc, h, hb⟩ := face_loop_safe vs es s hs 100 (eGetD es s).next 0
    exact ⟨ts, fc, h, by simpa using hb⟩

set_option maxRecDepth 4000 in
/-- C2 counterexample: on the malformed two-edge cycle that never returns
to the start edge, the face-loop walk performs exactly 100 iterations
(final `face_vertex_count` 100), not fewer than 100. -/
theorem c2_counterexample :
    face_loop [] loopEs 0 100 1 0 = some ([], 100) ∧ ¬ (100 < 100) := by
  constructor
  · decide
  · decide

/-- C2 witness: safety instantiated on the malformed two-edge cycle. -/
theorem c2_witness :
    (∃ ts, triangulate_hull [] loopEs [0] = some ts) ∧
    (∃ ts fc, face_loop [] loopEs 0 100 (eGetD loopEs 0).next 0 =
      some (ts, fc) ∧ fc ≤ 100) :=
  ⟨(c2_hull_safety [] loopEs [0]).1,
    (c2_hull_safety [] loopEs [0]).2 0 (by decide)⟩

/-- C9 (confirmed): for every face whose loop walk returns to the start
half-edge within the 100-step bound with all origin indices in range — a
closed n-gon face loop given by the cycle `s :: rest` with `n - 1 =
rest.length` — the walk emits exactly n-1 triangles, and the last emitted
triangle is degenerate: its third vertex equals its first vertex, both
being `vertices[edges[start].origin]`. -/
theorem c9_ngon_walk (vs : List Vector3) (es : List Edge) (s : Nat)
    (rest : List Nat)
    (hn3 : 2 ≤ rest.length) (hn : rest.length ≤ 100)
    (hs : s < es.length)
    (hrange : ∀ e ∈ rest, e < es.length)
    (hne : ∀ e ∈ rest, e ≠ s)
    (hchain : chain_to es s (s :: rest))
    (hos : (eGetD es s).origin < vs.length)
    (horig : ∀ e ∈ rest, (eGetD es e).origin < vs.length) :
    ∃ ts t,
      face_loop vs es s 100 (eGetD es s).next 0 = some (ts, rest.length) ∧
      ts.length = (s :: rest).length - 1 ∧
      ts.getLast? = some t ∧
      t.p1 = vGetD vs (eGetD es s).origin ∧ t.p3 = t.p1 := by
  cases rest with
  | nil => simp at hn3
  | cons e1 rtail =>
    simp only [chain_to] at hchain
    obtain ⟨hch1, hchr⟩ := hchain
    have hwalk := face_loop_walk vs es s hs hos (e1 :: rtail) 0 100 (by simp)
      hne hrange horig hchr (by simpa using hn) (by simpa using hn)
    simp only [List.headD_cons, Nat.zero_add] at hwalk
    obtain ⟨t, hlast, h1, h3⟩ := fan_tris_last vs es s (e1 :: rtail) (by simp)
    refine ⟨fan_tris vs es s (e1 :: rtail), t, ?_, ?_, hlast, h1, h3⟩
    · rw [hch1]
      exact hwalk
    · rw [fan_tris_length]
      simp

/-- C9 witness: the n-gon walk instantiated on the concrete square hull
(n = 4). -/
theorem c9_witness :
    ∃ ts t,
      face_loop sqVs sqEs 0 100 (eGetD sqEs 0).next 0 = some (ts, 3) ∧
      ts.length = 3 ∧
      ts.getLast? = some t ∧
      t.p1 = vGetD sqVs (eGetD sqEs 0).origin ∧ t.p3 = t.p1 :=
  c9_ngon_walk sqVs sqEs 0 [1, 2, 3] (by decide) (by decide) (by decide)
    (by decide) (by decide)
    (by unfold chain_to; exact ⟨rfl, rfl, rfl, rfl⟩) (by decide) (by decide)

/-- C3 (corrected): for every valid hex-pair string of `n` encoded bytes
(two hex digits plus one trailing space separator per byte), the decoded
element sequence has length `n / sz + 1` — one more element than the
`floor(raw_byte_count / size_of(T))` the claim states, because the source
returns the vector it resized to `num_elements + 1`. -/
theorem c3_decode_length (sz : Nat) (pairs : List (Char × Char))
    (hsz : 0 < sz)
    (hhex : ∀ p ∈ pairs, IsHexDigit p.1 ∧ IsHexDigit p.2)
    (hne : pairs ≠ []) :
    (bytes_to_vec sz (hex_pair_string pairs)).length =
      pairs.length / sz + 1 := by
  have hlen := hex_pair_string_length pairs
  have hplen : 0 < pairs.length := List.length_pos.mpr hne
  have hne' : hex_pair_string pairs ≠ [] := by
    intro hc
    have h0 : (hex_pair_string pairs).length = 0 := by
      rw [hc]
      rfl
    rw [hlen] at h0
    omega
  rw [bytes_to_vec_length sz _ hne', hlen,
    Nat.mul_div_cancel_left pairs.length (by norm_num : 0 < 3)]

/-- C3 counterexample: a valid 4-byte hex-pair blob decoded at element
size 4 yields 2 elements, not the `floor(4 / 4) = 1` the claim states. -/
theorem c3_counterexample :
    (bytes_to_vec 4 (hex_pair_string
      [('0', '0'), ('0', '0'), ('0', '0'), ('0', '0')])).length = 2 ∧
    (2 : Nat) ≠ 1 := by
  constructor
  · rfl
  · decide

/-- C3 witness: the amended length formula on a valid 8-byte blob at
element size 4. -/
theorem c3_witness :
    ((0 : Nat) < 4 ∧
      (∀ p ∈ [('0', '1'), ('2', '3'), ('4', '5'), ('6', '7'), ('8', '9'),
          ('a', 'b'), ('c', 'd'), ('e', 'f')],
        IsHexDigit (Prod.fst p) ∧ IsHexDigit (Prod.snd p))) ∧
    (bytes_to_vec 4 (hex_pair_string
      [('0', '1'), ('2', '3'), ('4', '5'), ('6', '7'), ('8', '9'),
        ('a', 'b'), ('c', 'd'), ('e', 'f')])).length =
      ([('0', '1'), ('2', '3'), ('4', '5'), ('6', '7'), ('8', '9'),
        ('a', 'b'), ('c', 'd'), ('e', 'f')] :
          List (Char × Char)).length / 4 + 1 :=
  ⟨⟨by decide, by decide⟩,
    c3_decode_length 4
      [('0', '1'), ('2', '3'), ('4', '5'), ('6', '7'), ('8', '9'),
        ('a', 'b'), ('c', 'd'), ('e', 'f')]
      (by decide) (by decide) (by decide)⟩

/-- C10 (corrected): the decoder's run is not defined for every non-empty
input string — on a trailing lone non-space character the decode loop
consumes the NUL terminator and steps past it, and a string denser than
one encoded byte per three characters overflows the resized buffer; the
instrumented decoder records both as `none`.  For every non-empty string
on which the run is defined, the returned sequence has
`s.length / 3 / sz + 1` elements — always at least one — so the driver's
decoded-but-empty skip branch is unreachable for such non-empty blob
strings, undersized blobs included. -/
theorem c10_decode_length_defined (sz : Nat) (s : List Char)
    (r : List (List Nat)) (hsz : 0 < sz) (hne : s ≠ [])
    (h : bytes_to_vec_checked sz s = some r) :
    r.length = s.length / 3 / sz + 1 ∧ r ≠ [] := by
  simp only [bytes_to_vec_checked, hne, if_false] at h
  cases hdec : decode_bytes_checked s with
  | none =>
    simp only [hdec] at h
    exact Option.noConfusion h
  | some raw =>
    simp only [hdec] at h
    by_cases hov : (s.length / 3 / sz + 1) * sz < raw.length
    · rw [if_pos hov] at h
      exact Option.noConfusion h
    · rw [if_neg hov] at h
      simp only [Option.some.injEq] at h
      constructor
      · rw [← h]
        simp
      · rw [← h]
        simp

/-- C10 counterexample: on the non-empty input `"0"` the decode loop
consumes the NUL terminator as the second token character and steps past
it, so the run is undefined and returns no element sequence at all — in
particular not one of the length the claim states. -/
theorem c10_counterexample :
    bytes_to_vec_checked 4 ['0'] = none ∧
    (bytes_to_vec_checked 4 ['0']).map List.length ≠
      some ((['0'] : List Char).length / 3 / 4 + 1) := by
  constructor
  · rfl
  · decide

/-- C10 witness: the undersized blob `"00 "` — one encoded byte against a
4-byte element — has a defined run and still decodes to one element. -/
theorem c10_witness :
    ((0 : Nat) < 4 ∧ (['0', '0', ' '] : List Char) ≠ [] ∧
      bytes_to_vec_checked 4 ['0', '0', ' '] = some [[0, 0, 0, 0]]) ∧
    (([[0, 0, 0, 0]] : List (List Nat)).length =
      (['0', '0', ' '] : List Char).length / 3 / 4 + 1 ∧
      ([[0, 0, 0, 0]] : List (List Nat)) ≠ []) :=
  ⟨⟨by decide, by decide, by decide⟩,
    c10_decode_length_defined 4 ['0', '0', ' '] [[0, 0, 0, 0]] (by decide)
      (by decide) (by decide)⟩

/-- C5 (confirmed): for 32-bit index values and a complete-triple index
array, the mesh triangulation performs no out-of-range raw read and emits
exactly the triangles of `spec_mesh_tris`: one per triple, present if and
only if all three indices are non-negative and strictly below the vertex
count (a negative index fails the `size_t` comparison), skipped triples
raising no error. -/
theorem c5_mesh_triples (vs : List Vector3) (l : List Int)
    (hvs : vs.length < 2 ^ 63)
    (h32 : ∀ v ∈ l, -(2 ^ 31 : Int) ≤ v ∧ v < 2 ^ 31)
    (h3 : l.length % 3 = 0) :
    triangulate_mesh vs l = some (spec_mesh_tris vs l) := by
  have h := mesh_loop_spec vs hvs l h32
  have hdrop : l.drop (3 * (l.length / 3)) = [] := by
    have h33 : 3 * (l.length / 3) = l.length := by omega
    rw [h33, List.drop_length]
  rw [hdrop] at h
  simpa [triangulate_mesh, partial_reaches_oob] using h

/-- C5 witness: indices `[0, 1, 2, 5, 1, 2]` against 4 vertices yield
exactly the one triangle of the first triple. -/
theorem c5_witness :
    (sqVs.length < 2 ^ 63 ∧
      (∀ v ∈ ([0, 1, 2, 5, 1, 2] : List Int),
        -(2 ^ 31 : Int) ≤ v ∧ v < 2 ^ 31) ∧
      ([0, 1, 2, 5, 1, 2] : List Int).length % 3 = 0) ∧
    triangulate_mesh sqVs [0, 1, 2, 5, 1, 2] =
      some [Triangle.mk (Vector3.mk 0 0 0) (Vector3.mk 1 0 0)
        (Vector3.mk 2 0 0)] :=
  ⟨⟨by decide, by decide, by decide⟩,
    Eq.trans
      (c5_mesh_triples sqVs [0, 1, 2, 5, 1, 2] (by decide) (by decide)
        (by decide))
      (by decide)⟩

/-- C6 (corrected): an index array whose length is not a multiple of 3
does not leave the trailing partial triple untouched: the loop still
enters an iteration for it, and reads the index array out of range — the
`none` result — exactly when the short-circuited bounds chain reaches the
missing position, i.e. when every in-range index of the partial triple
passes the vertex-bounds test; only otherwise is the partial triple
dropped silently, with no triangle emitted from it. -/
theorem c6_partial_triple (vs : List Vector3) (l : List Int)
    (hvs : vs.length < 2 ^ 63)
    (h32 : ∀ v ∈ l, -(2 ^ 31 : Int) ≤ v ∧ v < 2 ^ 31)
    (h3 : l.length % 3 ≠ 0) :
    (triangulate_mesh vs l = none ↔
      partial_reaches_oob vs (l.drop (3 * (l.length / 3))) = true) ∧
    (partial_reaches_oob vs (l.drop (3 * (l.length / 3))) = false →
      triangulate_mesh vs l = some (spec_mesh_tris vs l)) := by
  have h := mesh_loop_spec vs hvs l h32
  constructor
  · cases hr : partial_reaches_oob vs (l.drop (3 * (l.length / 3))) <;>
      simp [triangulate_mesh, h, hr]
  · intro hr
    simp [triangulate_mesh, h, hr]

/-- C6 counterexample: with one vertex and the single index 0 — a partial
triple whose only index passes the vertex-bounds test — the loop reads the
index array out of range (`none`), contradicting "performs no out-of-range
read of the index array". -/
theorem c6_counterexample :
    triangulate_mesh [Vector3.mk 0 0 0] [(0 : Int)] = none ∧
    (none : Option (List Triangle)) ≠ some [] := by
  constructor
  · rfl
  · decide

/-- C6 witness: the amended statement on a partial triple whose index
fails the bounds test — the triple is dropped with no error and no
triangle. -/
theorem c6_witness :
    (([(-1 : Int)] : List Int).length % 3 ≠ 0 ∧
      partial_reaches_oob [Vector3.mk 0 0 0]
        (([(-1 : Int)] : List Int).drop
          (3 * (([(-1 : Int)] : List Int).length / 3))) = false) ∧
    triangulate_mesh [Vector3.mk 0 0 0] [(-1 : Int)] = some [] :=
  ⟨⟨by decide, by decide⟩,
    Eq.trans
      ((c6_partial_triple [Vector3.mk 0 0 0] [(-1 : Int)] (by decide)
        (by decide) (by decide)).2 (by decide))
      (by decide)⟩

/-- C4 (confirmed, spec-modelled store): with the property store modelled
per the spec — a present path returns its raw (quoted, hence non-empty)
token and only absence yields the empty string — the resolver's scan stops
exactly at the first absent slot: a slot holding the present-but-empty
string value (raw token `""`) is scanned past and merely rejected by the
`default` comparison, and every slot before the first absent one is
examined. -/
theorem c4_scan_termination (q : Nat → Option (List Char)) (k i fuel : Nat)
    (hpres : ∀ j, j < k → ∃ t, q j = some t ∧ t ≠ [])
    (habs : q k = none) (hfuel : k < fuel) (hik : i < k)
    (hempty : q i = some ['"', '"']) :
    i ∉ get_collision_attribute_indices q fuel ∧
    get_collision_attribute_indices q fuel =
      (List.range k).filter
        (fun j =>
          decide (clean_collision_string (get_value q j) = default_label)) := by
  have hchar := collision_scan_spec q k hpres habs fuel 0 (Nat.zero_le k)
    (by omega)
  simp only [Nat.sub_zero] at hchar
  have heq : get_collision_attribute_indices q fuel =
      (List.range k).filter
        (fun j =>
          decide (clean_collision_string (get_value q j) = default_label)) := by
    rw [get_collision_attribute_indices, hchar, List.range_eq_range' k]
  refine ⟨?_, heq⟩
  rw [heq]
  intro hmem
  rw [List.mem_filter] at hmem
  have hcl : clean_collision_string (get_value q i) = default_label := by
    simpa using hmem.2
  rw [get_value, hempty] at hcl
  exact absurd hcl (by decide)

/-- C4 witness: on the concrete store whose slot 0 holds the raw token of
a present-but-empty string and whose slot 2 is the first absent one, the
scan passes slot 0 and examines both present slots. -/
theorem c4_witness :
    0 ∉ get_collision_attribute_indices c4q 3 ∧
    get_collision_attribute_indices c4q 3 =
      (List.range 2).filter
        (fun j =>
          decide (clean_collision_string (get_value c4q j) = default_label)) :=
  c4_scan_termination c4q 2 0 3
    (by
      intro j hj
      interval_cases j
      · exact ⟨['"', '"'], rfl, by decide⟩
      · exact ⟨['"', 'd', 'e', 'f', 'a', 'u', 'l', 't', '"', '\n'], rfl,
          by decide⟩)
    rfl (by decide) (by decide) rfl

/-- C7 (confirmed): a slot before the first absent one is accepted into
the resolver's result if and only if its label token, cleaned — one
leading quote stripped together with everything from the last quote on
when the leading quote exists and the last quote sits later, then
ASCII-lowercased — equals `default`; the labels `Default`, `DEFAULT` and
the quoted `"default"` with a trailing newline are all accepted. -/
theorem c7_default_label (q : Nat → Option (List Char)) (k i fuel : Nat)
    (hpres : ∀ j, j < k → ∃ t, q j = some t ∧ t ≠ [])
    (habs : q k = none) (hfuel : k < fuel) (hik : i < k) :
    (i ∈ get_collision_attribute_indices q fuel ↔
      clean_collision_string (get_value q i) = default_label) ∧
    clean_collision_string ['D', 'e', 'f', 'a', 'u', 'l', 't'] =
      default_label ∧
    clean_collision_string ['D', 'E', 'F', 'A', 'U', 'L', 'T'] =
      default_label ∧
    clean_collision_string
      ['"', 'd', 'e', 'f', 'a', 'u', 'l', 't', '"', '\n'] = default_label := by
  refine ⟨?_, by decide, by decide, by decide⟩
  have hchar := collision_scan_spec q k hpres habs fuel 0 (Nat.zero_le k)
    (by omega)
  simp only [Nat.sub_zero] at hchar
  rw [get_collision_attribute_indices, hchar, ← List.range_eq_range' k,
    List.mem_filter]
  constructor
  · intro h
    simpa using h.2
  · intro h
    exact ⟨List.mem_range.mpr hik, by simpa using h⟩

/-- C7 witness: on the concrete store, slot 1 — whose token is the quoted
`default` with a trailing newline — is accepted. -/
theorem c7_witness :
    ((1 : Nat) ∈ get_collision_attribute_indices c4q 3 ↔
      clean_collision_string (get_value c4q 1) = default_label) ∧
    clean_collision_string ['D', 'e', 'f', 'a', 'u', 'l', 't'] =
      default_label ∧
    clean_collision_string ['D', 'E', 'F', 'A', 'U', 'L', 'T'] =
      default_label ∧
    clean_collision_string
      ['"', 'd', 'e', 'f', 'a', 'u', 'l', 't', '"', '\n'] = default_label :=
  c7_default_label c4q 2 1 3
    (by
      intro j hj
      interval_cases j
      · exact ⟨['"', '"'], rfl, by decide⟩
      · exact ⟨['"', 'd', 'e', 'f', 'a', 'u', 'l', 't', '"', '\n'], rfl,
          by decide⟩)
    rfl (by decide) (by decide)

/-- C8 (confirmed): an output file is written if and only if the
accumulated triangle list is non-empty, and the written bytes are exactly
`triangle_count * 36` bytes — the triangles in accumulation order, each as
three consecutive `Vector3` of three 4-byte little-endian single-precision
floats, with no header, count field or padding. -/
theorem c8_output_bytes (triangles : List Triangle) :
    (write_output triangles = none ↔ triangles = []) ∧
    (∀ bs, write_output triangles = some bs →
      bs.length = 36 * triangles.length ∧
      bs = triangles.flatMap triangle_bytes) := by
  constructor
  · constructor
    · intro h
      by_contra hne
      have hpos : 0 < triangles.length := List.length_pos.mpr hne
      simp [write_output, hpos] at h
    · intro h
      subst h
      rfl
  · intro bs hbs
    have hpos : 0 < triangles.length := by
      by_contra hle
      have h0 : triangles = [] := by
        cases triangles with
        | nil => rfl
        | cons t ts => simp at hle
      subst h0
      simp [write_output] at hbs
    rw [write_output, if_pos hpos] at hbs
    have hbs' : bs = triangles.flatMap triangle_bytes :=
      (Option.some.inj hbs).symm
    subst hbs'
    exact ⟨flatMap_triangle_bytes_length triangles, rfl⟩

/-- C8 witness: the empty list produces no output, and a one-triangle
list produces exactly 36 bytes. -/
theorem c8_witness :
    (write_output [] = none ↔ ([] : List Triangle) = []) ∧
    (([Triangle.mk (Vector3.mk 0 0 0) (Vector3.mk 0 0 0)
        (Vector3.mk 0 0 0)].flatMap triangle_bytes).length =
      36 * [Triangle.mk (Vector3.mk 0 0 0) (Vector3.mk 0 0 0)
        (Vector3.mk 0 0 0)].length) :=
  ⟨(c8_output_bytes []).1,
    ((c8_output_bytes [Triangle.mk (Vector3.mk 0 0 0) (Vector3.mk 0 0 0)
      (Vector3.mk 0 0 0)]).2
        ([Triangle.mk (Vector3.mk 0 0 0) (Vector3.mk 0 0 0)
          (Vector3.mk 0 0 0)].flatMap triangle_bytes) rfl).1⟩
end Vphys
